import Mathlib

/-!
Verification of the drakyn-desktop agent core against its specification.

The development shallowly embeds two bodies of code:

* the browser chat client (`public/app.js`): HTML escaping, the SSE chunk
  reassembly loop, the per-event dispatch of `sendMessage`, the request
  bodies sent to `/v1/agent/chat` and to the capability registry's
  `/execute` endpoint, and the input-enable/disable flow;
* the agent orchestration core (orchestrator, tool-call extractor, chat
  entrypoint).  The Python sources of that core are not part of this
  repository snapshot — only their architecture documentation and their
  callers are — so those definitions are modelled from the specification
  and are marked as such in their doc comments.

JSON values are modelled structurally; machine text is modelled as
`List Char` where proofs walk it and as `String` at the boundaries.
-/

namespace Drakyn

/-- A JSON value.  Numbers keep their source spelling, so no floating point
semantics enters the embedding; none of the verified properties inspects a
numeric value beyond zero-ness. -/
inductive Json where
  | null : Json
  | bool (b : Bool) : Json
  | num (raw : String) : Json
  | str (s : String) : Json
  | arr (items : List Json) : Json
  | obj (fields : List (String × Json)) : Json

mutual

/-- Decidable structural equality on JSON values. -/
def jsonDecEq : (a b : Json) → Decidable (a = b)
  | .null, .null => isTrue rfl
  | .bool a, .bool b =>
    match decEq a b with
    | isTrue h => isTrue (by rw [h])
    | isFalse h => isFalse (fun hh => h (Json.bool.inj hh))
  | .num a, .num b =>
    match decEq a b with
    | isTrue h => isTrue (by rw [h])
    | isFalse h => isFalse (fun hh => h (Json.num.inj hh))
  | .str a, .str b =>
    match decEq a b with
    | isTrue h => isTrue (by rw [h])
    | isFalse h => isFalse (fun hh => h (Json.str.inj hh))
  | .arr x, .arr y =>
    match jsonDecEqList x y with
    | isTrue h => isTrue (by rw [h])
    | isFalse h => isFalse (fun hh => h (Json.arr.inj hh))
  | .obj x, .obj y =>
    match jsonDecEqFields x y with
    | isTrue h => isTrue (by rw [h])
    | isFalse h => isFalse (fun hh => h (Json.obj.inj hh))
  | .null, .bool _ | .null, .num _ | .null, .str _ | .null, .arr _ | .null, .obj _
  | .bool _, .null | .bool _, .num _ | .bool _, .str _ | .bool _, .arr _ | .bool _, .obj _
  | .num _, .null | .num _, .bool _ | .num _, .str _ | .num _, .arr _ | .num _, .obj _
  | .str _, .null | .str _, .bool _ | .str _, .num _ | .str _, .arr _ | .str _, .obj _
  | .arr _, .null | .arr _, .bool _ | .arr _, .num _ | .arr _, .str _ | .arr _, .obj _
  | .obj _, .null | .obj _, .bool _ | .obj _, .num _ | .obj _, .str _ | .obj _, .arr _ =>
    isFalse (fun hh => Json.noConfusion hh)

/-- Decidable equality on lists of JSON values. -/
def jsonDecEqList : (xs ys : List Json) → Decidable (xs = ys)
  | [], [] => isTrue rfl
  | x :: xs, y :: ys =>
    match jsonDecEq x y with
    | isTrue h1 =>
      (match jsonDecEqList xs ys with
       | isTrue h2 => isTrue (by rw [h1, h2])
       | isFalse h2 => isFalse (fun hh => h2 (List.tail_eq_of_cons_eq hh)))
    | isFalse h1 => isFalse (fun hh => h1 (List.head_eq_of_cons_eq hh))
  | [], _ :: _ => isFalse (fun hh => List.noConfusion hh)
  | _ :: _, [] => isFalse (fun hh => List.noConfusion hh)

/-- Decidable equality on JSON object member lists. -/
def jsonDecEqFields : (xs ys : List (String × Json)) → Decidable (xs = ys)
  | [], [] => isTrue rfl
  | (ka, va) :: xs, (kb, vb) :: ys =>
    match decEq ka kb with
    | isTrue hk =>
      (match jsonDecEq va vb with
       | isTrue hv =>
         (match jsonDecEqFields xs ys with
          | isTrue ht => isTrue (by rw [hk, hv, ht])
          | isFalse ht => isFalse (fun hh => ht (List.tail_eq_of_cons_eq hh)))
       | isFalse hv =>
         isFalse (fun hh => hv (congrArg Prod.snd (List.head_eq_of_cons_eq hh))))
    | isFalse hk =>
      isFalse (fun hh => hk (congrArg Prod.fst (List.head_eq_of_cons_eq hh)))
  | [], _ :: _ => isFalse (fun hh => List.noConfusion hh)
  | _ :: _, [] => isFalse (fun hh => List.noConfusion hh)

end

instance : DecidableEq Json := jsonDecEq

/-- Field lookup in a parsed JSON object, last occurrence winning, as a
Python `dict` built by `json.loads` and a JavaScript object literal both
behave. -/
def jlookup : List (String × Json) → String → Option Json
  | [], _ => none
  | (k, v) :: rest, key =>
    match jlookup rest key with
    | some v' => some v'
    | none => if k = key then some v else none

/-- Property access `data.<k>` as the client performs it on a parsed JSON
value: a field of an object, `undefined` (here `none`) on everything
else. -/
def jget (j : Json) (k : String) : Option Json :=
  match j with
  | .obj fields => jlookup fields k
  | _ => none

/-- The member names of a JSON object (empty for non-objects). -/
def jkeys : Json → List String
  | .obj fields => fields.map (fun f => f.1)
  | _ => []

/-! ### A strict JSON parser

Modelled from the spec: the tool-call extractor of the missing
orchestrator source parses candidate objects with a strict JSON parser
(`json.loads` in the documented Python implementation): trailing commas,
unbalanced brackets and bad escapes are rejected.  The parser below is
fuel-indexed; callers hand it one unit of fuel per input character plus
one, which is always sufficient because every recursive call consumes
input. -/

/-- JSON whitespace. -/
def isJsonWs (c : Char) : Bool :=
  c = ' ' || c = '\t' || c = '\n' || c = '\r'

/-- Drop leading JSON whitespace. -/
def skipWs (cs : List Char) : List Char :=
  cs.dropWhile isJsonWs

/-- Decimal digit test, by code point: codes 48 through 57. -/
def isDigitChar (c : Char) : Bool :=
  48 ≤ c.toNat && c.toNat ≤ 57

/-- Value of a hexadecimal digit, by its code point: `0`-`9` map from
code 48, `a`-`f` from code 97, `A`-`F` from code 65. -/
def hexVal (c : Char) : Option Nat :=
  let n := c.toNat
  if 48 ≤ n ∧ n ≤ 57 then some (n - 48)
  else if 97 ≤ n ∧ n ≤ 102 then some (n - 97 + 10)
  else if 65 ≤ n ∧ n ≤ 70 then some (n - 65 + 10)
  else none

/-- The single-character JSON string escapes. -/
def simpleEsc (c : Char) : Option Char :=
  if c = '"' then some '"'
  else if c = '\\' then some '\\'
  else if c = '/' then some '/'
  else if c = 'b' then some (Char.ofNat 8)
  else if c = 'f' then some (Char.ofNat 12)
  else if c = 'n' then some '\n'
  else if c = 'r' then some '\r'
  else if c = 't' then some '\t'
  else none

/-- Parse the body of a JSON string after the opening quote; returns the
decoded characters and the input after the closing quote.  Raw control
characters and unknown escapes are rejected. -/
def parseStringBody : List Char → Option (List Char × List Char)
  | '"' :: rest => some ([], rest)
  | '\\' :: 'u' :: h1 :: h2 :: h3 :: h4 :: rest =>
    (match hexVal h1, hexVal h2, hexVal h3, hexVal h4 with
     | some a, some b, some c, some d =>
       (parseStringBody rest).map
         (fun p => (Char.ofNat (((a * 16 + b) * 16 + c) * 16 + d) :: p.1, p.2))
     | _, _, _, _ => none)
  | '\\' :: e :: rest =>
    (match simpleEsc e with
     | some c => (parseStringBody rest).map (fun p => (c :: p.1, p.2))
     | none => none)
  | c :: rest =>
    if c.toNat < 32 then none
    else (parseStringBody rest).map (fun p => (c :: p.1, p.2))
  | [] => none

/-- Longest prefix of decimal digits, with the rest of the input. -/
def spanDigits (cs : List Char) : List Char × List Char :=
  (cs.takeWhile isDigitChar, cs.dropWhile isDigitChar)

/-- Integer part of a JSON number (after an optional sign): `0`, or a
nonzero digit followed by digits.  Leading zeros are rejected. -/
def parseIntPart : List Char → Option (List Char × List Char)
  | '0' :: rest => some (['0'], rest)
  | c :: rest =>
    if '1' ≤ c && c ≤ '9' then
      let p := spanDigits rest
      some (c :: p.1, p.2)
    else none
  | [] => none

/-- Optional fraction part: absent, or a dot followed by at least one
digit; a dot with no digit makes the whole number malformed. -/
def parseFracPart : List Char → Option (List Char × List Char)
  | '.' :: rest =>
    let p := spanDigits rest
    if p.1 = [] then none else some ('.' :: p.1, p.2)
  | cs => some ([], cs)

/-- Optional exponent part: absent, or `e`/`E`, an optional sign, and at
least one digit. -/
def parseExpPart : List Char → Option (List Char × List Char)
  | e :: s :: rest =>
    if e = 'e' || e = 'E' then
      if s = '+' || s = '-' then
        let p := spanDigits rest
        if p.1 = [] then none else some (e :: s :: p.1, p.2)
      else
        let p := spanDigits (s :: rest)
        if p.1 = [] then none else some (e :: p.1, p.2)
    else some ([], e :: s :: rest)
  | [e] =>
    if e = 'e' || e = 'E' then none else some ([], [e])
  | [] => some ([], [])

/-- Parse a complete JSON number literal, keeping its raw spelling. -/
def parseNumberLit (cs : List Char) : Option (List Char × List Char) :=
  let signed := match cs with
    | '-' :: rest => some (['-'], rest)
    | rest => some (([] : List Char), rest)
  match signed with
  | some (sgn, afterSign) =>
    match parseIntPart afterSign with
    | some (ip, afterInt) =>
      match parseFracPart afterInt with
      | some (fp, afterFrac) =>
        match parseExpPart afterFrac with
        | some (ep, rest) => some (sgn ++ ip ++ fp ++ ep, rest)
        | none => none
      | none => none
    | none => none
  | none => none

mutual

/-- Parse one JSON value after skipping leading whitespace.  The three
keyword literals are tried first; otherwise the first character decides
between string, array, object and number. -/
def parseValue : Nat → List Char → Option (Json × List Char)
  | 0, _ => none
  | fuel + 1, cs =>
    let s := skipWs cs
    if "null".data.isPrefixOf s then some (.null, s.drop 4)
    else if "true".data.isPrefixOf s then some (.bool true, s.drop 4)
    else if "false".data.isPrefixOf s then some (.bool false, s.drop 5)
    else
      match s with
      | '"' :: rest =>
        (parseStringBody rest).map (fun p => (.str (String.mk p.1), p.2))
      | '[' :: rest =>
        (match skipWs rest with
         | ']' :: rest' => some (.arr [], rest')
         | inner => (parseItems fuel inner).map (fun p => (.arr p.1, p.2)))
      | '{' :: rest =>
        (match skipWs rest with
         | '}' :: rest' => some (.obj [], rest')
         | inner => (parseFields fuel inner).map (fun p => (.obj p.1, p.2)))
      | other =>
        (parseNumberLit other).map (fun p => (.num (String.mk p.1), p.2))

/-- Parse one or more comma-separated array items up to the closing
bracket. -/
def parseItems : Nat → List Char → Option (List Json × List Char)
  | 0, _ => none
  | fuel + 1, cs =>
    match parseValue fuel cs with
    | some (v, rest) =>
      (match skipWs rest with
       | ',' :: rest' =>
         (parseItems fuel rest').map (fun p => (v :: p.1, p.2))
       | ']' :: rest' => some ([v], rest')
       | _ => none)
    | none => none

/-- Parse one or more comma-separated object members up to the closing
brace.  After a comma another member must follow, so a trailing comma is
malformed. -/
def parseFields : Nat → List Char → Option (List (String × Json) × List Char)
  | 0, _ => none
  | fuel + 1, cs =>
    match skipWs cs with
    | '"' :: afterQuote =>
      (match parseStringBody afterQuote with
       | some (key, afterKey) =>
         (match skipWs afterKey with
          | ':' :: afterColon =>
            (match parseValue fuel afterColon with
             | some (v, rest) =>
               (match skipWs rest with
                | ',' :: rest' =>
                  (parseFields fuel rest').map
                    (fun p => ((String.mk key, v) :: p.1, p.2))
                | '}' :: rest' => some ([(String.mk key, v)], rest')
                | _ => none)
             | none => none)
          | _ => none)
       | none => none)
    | _ => none

end

/-- Parse a whole JSON document as `JSON.parse` does: one value, then
nothing but whitespace. -/
def parseJsonDocument (cs : List Char) : Option Json :=
  match parseValue (cs.length + 1) cs with
  | some (j, rest) => if skipWs rest = [] then some j else none
  | none => none

/-! ### Tool-call extraction -/

/-- Modelled from the spec: `ToolCall`, defined in the absent
`agent/models.py`, is `tool` (name), `args` (key-to-value mapping) and
`reasoning` (optional text, defaulting to empty), produced by the
extractor from one completion. -/
structure ToolCall where
  tool : String
  args : Json
  reasoning : String
deriving DecidableEq

/-- Modelled from the spec: the candidate acceptance test of the absent
extractor (`agent/orchestrator.py`).  A candidate is accepted when it is
one syntactically valid JSON object with at least a string member `tool`
and an object member `args`; `reasoning` is optional and defaults to
empty.  Text after the object is ignored. -/
def tryParseCall (cs : List Char) : Option ToolCall :=
  match parseValue (cs.length + 1) cs with
  | some (.obj fields, _) =>
    (match jlookup fields "tool", jlookup fields "args" with
     | some (.str t), some (.obj a) =>
       some
         { tool := t
           args := .obj a
           reasoning :=
             match jlookup fields "reasoning" with
             | some (.str r) => r
             | _ => "" }
     | _, _ => none)
  | _ => none

/-- Modelled from the spec: the scan of the absent extractor.  Walk the
completion text left to right; at each opening brace try to parse a tool
call, and keep the first success — the reference behaviour picks the
first syntactically valid match containing the required fields,
tolerating prose and code fences around the object, and treats malformed
JSON as no call at all. -/
def extractAux : List Char → Option ToolCall
  | [] => none
  | c :: cs =>
    if c = '{' then
      match tryParseCall (c :: cs) with
      | some tc => some tc
      | none => extractAux cs
    else extractAux cs

/-- Modelled from the spec: the tool-call extractor of the absent
`agent/orchestrator.py`, `extract(text) -> Optional<ToolCall>`, a pure
total function on the raw completion text; the Lean definition cannot
throw, so totality is inherent. -/
def extract (text : String) : Option ToolCall :=
  extractAux text.data

/-- Does the input start with an opening brace?  These positions are
exactly the candidate positions the extractor tries to parse at. -/
def startsBrace : List Char → Bool
  | '{' :: _ => true
  | _ => false

/-- No candidate position of the text parses as a structured tool call:
every suffix beginning with an opening brace fails `tryParseCall`.  This
is the formal reading of a text whose only JSON-like content is
malformed or lacks the required fields. -/
def noCandidateCall (cs : List Char) : Prop :=
  ∀ i, i < cs.length → startsBrace (cs.drop i) = true →
    tryParseCall (cs.drop i) = none

instance (cs : List Char) : Decidable (noCandidateCall cs) := by
  unfold noCandidateCall
  infer_instance

/-! ### The data model of the orchestrator -/

deriving instance DecidableEq for Except

/-- Modelled from the spec: `AgentStep` of the absent
`agent/models.py`, one observable step of a run — a tagged variant,
immutable, emitted in strict causal order. -/
inductive AgentStep where
  | thinking (iteration : Nat) : AgentStep
  | toolCall (tool : String) (args : Json) (reasoning : String) : AgentStep
  | toolResult (tool : String) (result : Except String Json) : AgentStep
  | answer (content : String) : AgentStep
  | error (message : String) : AgentStep
  | done : AgentStep
deriving DecidableEq

/-- Modelled from the spec: `AgentConfig` of the absent
`agent/models.py`; `maxIterations` defaults to 5. -/
structure AgentConfig where
  maxIterations : Nat := 5
  temperature : Option String := none
  maxTokens : Option Nat := none
  topP : Option String := none
  verbose : Bool := false

/-- Modelled from the spec: `ToolDefinition` of the absent
`agent/models.py` — a tool made available by the capability registry:
name, description and a structural argument schema. -/
structure ToolDefinition where
  name : String
  description : String
  argsSchema : Json

/-- Is the named tool present in the registry snapshot? -/
def registryHas (registry : List ToolDefinition) (tool : String) : Bool :=
  registry.any (fun td => td.name == tool)

/-- The terminal message emitted when the iteration budget is
exhausted. -/
def budgetExceededMsg (maxIterations : Nat) : String :=
  "Maximum iterations (" ++ toString maxIterations ++ ") exceeded"

/-- The terminal message emitted for a tool name absent from the
registry snapshot. -/
def unknownToolMsg (tool : String) : String :=
  "Unknown tool: " ++ tool

/-- Modelled from the spec: the reasoning loop of the absent
`agent/orchestrator.py` (§4.1), with `fuel` iterations of budget left
and `i` the current 0-indexed iteration.  Each iteration
emits `thinking{i}`, calls the provider — a failure is terminal — runs
the extractor, and either answers with the whole completion, stops on an
unknown tool, or dispatches the call and folds the result (success or
failure) back in before the next iteration; an exhausted budget emits
the budget error.  The provider is an oracle from iteration index to
completion outcome, which ranges over every sequence of completions
including adversarial ones. -/
def runLoop (provider : Nat → Except String String)
    (registry : List ToolDefinition)
    (execTool : String → Json → Except String Json)
    (maxIterations : Nat) : Nat → Nat → List AgentStep
  | 0, _ => [.error (budgetExceededMsg maxIterations)]
  | fuel + 1, i =>
    .thinking i ::
      match provider i with
      | .error e => [.error e]
      | .ok text =>
        match extract text with
        | none => [.answer text]
        | some c =>
          if registryHas registry c.tool then
            .toolCall c.tool c.args c.reasoning ::
              .toolResult c.tool (execTool c.tool c.args) ::
                runLoop provider registry execTool maxIterations fuel (i + 1)
          else
            [.error (unknownToolMsg c.tool)]

/-- Modelled from the spec: a full run of the absent orchestrator — the
loop starts at iteration 0 with the whole budget. -/
def runSteps (provider : Nat → Except String String)
    (registry : List ToolDefinition)
    (execTool : String → Json → Except String Json)
    (cfg : AgentConfig) : List AgentStep :=
  runLoop provider registry execTool cfg.maxIterations cfg.maxIterations 0

/-- Modelled from the spec: the step stream the absent serving code
(`server.py`) lets a caller consume — the run's steps followed by the
transport's closing `done` event, which always follows the terminal
step.  Cancellation, which closes the channel without a terminal step,
is outside this embedding: every stream here is that of a run that was
not cancelled. -/
def streamSteps (provider : Nat → Except String String)
    (registry : List ToolDefinition)
    (execTool : String → Json → Except String Json)
    (cfg : AgentConfig) : List AgentStep :=
  runSteps provider registry execTool cfg ++ [.done]

/-- Terminal content-bearing steps: `answer` or `error`. -/
def isTerminalStep : AgentStep → Bool
  | .answer _ => true
  | .error _ => true
  | _ => false

/-- Content-bearing steps: everything except the transport's `done`. -/
def isContentStep : AgentStep → Bool
  | .done => false
  | _ => true

/-- `thinking` steps, one per iteration entered. -/
def isThinkingStep : AgentStep → Bool
  | .thinking _ => true
  | _ => false

/-! ### Wire encoding of steps

Modelled from the spec and the architecture document's SSE examples: one
JSON object per step, tagged by `type`, with the payload fields of §6. -/

/-- Modelled from the spec: the wire encoding of one step, per the step
event shape of §6 and the architecture document's SSE examples. -/
def encodeStep : AgentStep → Json
  | .thinking i => .obj [("type", .str "thinking"), ("iteration", .num (toString i))]
  | .toolCall t args reasoning =>
    .obj [("type", .str "tool_call"), ("tool_name", .str t),
          ("tool_args", args), ("content", .str reasoning)]
  | .toolResult t (.ok r) =>
    .obj [("type", .str "tool_result"), ("tool_name", .str t), ("result", r)]
  | .toolResult t (.error e) =>
    .obj [("type", .str "tool_result"), ("tool_name", .str t), ("error", .str e)]
  | .answer content => .obj [("type", .str "answer"), ("content", .str content)]
  | .error message => .obj [("type", .str "error"), ("error", .str message)]
  | .done => .obj [("type", .str "done")]

/-- The step event types of the wire protocol. -/
def stepEventTypes : List String :=
  ["thinking", "tool_call", "tool_result", "answer", "error", "done"]

/-- The payload field names of the wire protocol, `type` included. -/
def stepEventFields : List String :=
  ["type", "iteration", "tool_name", "tool_args", "content", "result", "error"]

/-! ### The chat client (`public/app.js`) -/

/-- `escapeHtml`'s building block: JavaScript
`String.prototype.replace` with a global single-character pattern. -/
def jsReplaceAll (c : Char) (rep : List Char) : List Char → List Char
  | [] => []
  | a :: rest => (if a = c then rep else [a]) ++ jsReplaceAll c rep rest

/-- `escapeHtml` from `public/app.js`: five sequential global
replacements, ampersand first. -/
def escapeHtml (s : String) : String :=
  String.mk
    (jsReplaceAll '\'' "&#39;".data
      (jsReplaceAll '"' "&quot;".data
        (jsReplaceAll '>' "&gt;".data
          (jsReplaceAll '<' "&lt;".data
            (jsReplaceAll '&' "&amp;".data s.data)))))

/-- The single-pass reading of `escapeHtml`: what one character becomes. -/
def escChar (c : Char) : List Char :=
  if c = '&' then "&amp;".data
  else if c = '<' then "&lt;".data
  else if c = '>' then "&gt;".data
  else if c = '"' then "&quot;".data
  else if c = '\'' then "&#39;".data
  else [c]

mutual

/-- JavaScript `String(x)` on a parsed JSON value, as far as the client
can reach it: strings pass through, arrays join their elements with
commas (`null` printing empty), objects print as `[object Object]`. -/
def jsString : Json → String
  | .str s => s
  | .null => "null"
  | .bool b => cond b "true" "false"
  | .num raw => raw
  | .obj _ => "[object Object]"
  | .arr items => jsStringList items

/-- Array elements under JavaScript `toString`, comma separated. -/
def jsStringList : List Json → String
  | [] => ""
  | [Json.null] => ""
  | [x] => jsString x
  | Json.null :: xs => "," ++ jsStringList xs
  | x :: xs => jsString x ++ "," ++ jsStringList xs

end

/-- JavaScript truthiness of a possibly-absent parsed JSON value, as the
client's `if (data.content)` tests it. -/
def jsTruthy : Option Json → Bool
  | none => false
  | some .null => false
  | some (.bool b) => b
  | some (.str s) => s ≠ ""
  | some (.num raw) =>
    (raw.data.takeWhile (fun c => c ≠ 'e' ∧ c ≠ 'E')).any
      (fun c => '1' ≤ c && c ≤ '9')
  | some (.arr _) => true
  | some (.obj _) => true

/-- The client's `data.content == null ? '' : data.content` coercion for
the final answer text. -/
def jsContentString : Option Json → String
  | none => ""
  | some .null => ""
  | some j => jsString j

/-- The client's `data.error == null ? 'Unknown error' : data.error`
default for the error text. -/
def jsErrorMessage : Option Json → String
  | none => "Unknown error"
  | some .null => "Unknown error"
  | some j => jsString j

/-- The literal HTML the error branch writes before the escaped error
text. -/
def errorHeaderHtml : String :=
  "<strong style=\"color: #dc3545;\">Error:</strong> "

/-- What one branch of `sendMessage`'s event dispatch does to the
message element, carrying exactly the payload fields that branch
reads. -/
inductive ClientAction where
  | showThinking (iteration : Option Json) (reasoning : Option Json) : ClientAction
  | showToolCall (toolName : Option Json) (reasoning : Option Json)
      (args : Option Json) : ClientAction
  | showToolResult (result : Option Json) : ClientAction
  | showAnswer (content : String) : ClientAction
  | showError (html : String) : ClientAction
  | streamDone : ClientAction
  | ignore : ClientAction
deriving DecidableEq

/-- The event dispatch of `sendMessage` (`public/app.js`): the
`if`/`else if` chain on `data.type`.  The `thinking` and `tool_call`
branches show `data.content` as reasoning only when it is truthy; the
`answer` branch coerces a nullish `data.content` to the empty string;
the `error` branch escapes the error text into an HTML fragment; every
unlisted type falls through with no action. -/
def dispatchEvent (data : Json) : ClientAction :=
  if jget data "type" = some (.str "thinking") then
    .showThinking (jget data "iteration")
      (cond (jsTruthy (jget data "content")) (jget data "content") none)
  else if jget data "type" = some (.str "tool_call") then
    .showToolCall (jget data "tool_name")
      (cond (jsTruthy (jget data "content")) (jget data "content") none)
      (jget data "tool_args")
  else if jget data "type" = some (.str "tool_result") then
    .showToolResult (jget data "result")
  else if jget data "type" = some (.str "answer") then
    .showAnswer (jsContentString (jget data "content"))
  else if jget data "type" = some (.str "error") then
    .showError (errorHeaderHtml ++ escapeHtml (jsErrorMessage (jget data "error")))
  else if jget data "type" = some (.str "done") then
    .streamDone
  else
    .ignore

/-! ### SSE chunk reassembly (`sendMessage`'s read loop)

The client appends each decoded chunk to a buffer, splits on newlines,
pops the trailing incomplete line back into the buffer, and walks the
complete lines; a `data: ` line is `JSON.parse`d and dispatched, and the
`done` branch `break`s out of the inner `for` loop only — the outer
`while` keeps reading. -/

/-- JavaScript `s.split('\n')` on characters: never empty; the last
element is the text after the final newline. -/
def splitNL : List Char → List (List Char)
  | [] => [[]]
  | c :: cs =>
    if c = '\n' then [] :: splitNL cs
    else
      match splitNL cs with
      | [] => [[c]]
      | l :: ls => (c :: l) :: ls

/-- `line.startsWith('data: ')`. -/
def isDataLine (l : List Char) : Bool :=
  "data: ".data.isPrefixOf l

/-- `line.slice(6)`: the JSON payload of a data line. -/
def dataPayload (l : List Char) : List Char :=
  l.drop 6

/-- `data.type === 'done'`. -/
def isDoneEvent (data : Json) : Bool :=
  match jget data "type" with
  | some (.str t) => t == "done"
  | _ => false

/-- How one batch of complete lines ends. -/
inductive BatchEnd where
  | ran : BatchEnd
  | brokeDone : BatchEnd
  | threw : BatchEnd
deriving DecidableEq

/-- Process the complete lines produced by one chunk: each `data: ` line
is parsed and its event recorded in order; a malformed payload is a
thrown `JSON.parse` exception that abandons everything; a `done` event
breaks out of the batch (the outer read loop continues). -/
def processBatch : List (List Char) → List Json × BatchEnd
  | [] => ([], .ran)
  | l :: ls =>
    if isDataLine l then
      match parseJsonDocument (dataPayload l) with
      | none => ([], .threw)
      | some data =>
        if isDoneEvent data then ([data], .brokeDone)
        else
          let p := processBatch ls
          (data :: p.1, p.2)
    else processBatch ls

/-- The read loop: feed each chunk through the buffer, process the
complete lines, and stop everything when a parse threw.  When the reader
reports no more chunks the loop exits and the leftover buffer is never
processed. -/
def feedChunks : List Char → List (List Char) → List Json
  | _, [] => []
  | buffer, chunk :: rest =>
    let ls := splitNL (buffer ++ chunk)
    let p := processBatch ls.dropLast
    match p.2 with
    | .threw => p.1
    | _ => p.1 ++ feedChunks (ls.getLastD []) rest

/-- The events the chat client processes, in order, for a given
chunking of the response bytes; the buffer starts empty. -/
def clientEvents (chunks : List (List Char)) : List Json :=
  feedChunks [] chunks

/-! ### Requests the client issues -/

/-- The body of a `/v1/agent/chat` request. -/
structure ChatRequestBody where
  message : String
  stream : Bool
  projectContext : Option Json
deriving DecidableEq

/-- The chat request `sendMessage` posts: `stream: true`, read
incrementally as SSE. -/
def sendMessageChatRequest (message : String) (projectContext : Option Json) :
    ChatRequestBody :=
  { message := message, stream := true, projectContext := projectContext }

/-- The chat request `analyzeProjectStatus` posts: `stream: false`, its
response read once as a single JSON body. -/
def analyzeStatusChatRequest (analysisPrompt : String) (projectContext : Json) :
    ChatRequestBody :=
  { message := analysisPrompt, stream := false, projectContext := some projectContext }

/-- How the client reads the response body of a chat request. -/
inductive ResponseReadMode where
  | sseIncremental : ResponseReadMode
  | singleJson : ResponseReadMode
deriving DecidableEq

/-- `sendMessage` reads `response.body.getReader()` chunk by chunk;
`analyzeProjectStatus` reads `response.json()` once. -/
def chatResponseReadMode (stream : Bool) : ResponseReadMode :=
  cond stream .sseIncremental .singleJson

/-- Modelled from the spec: the response of the absent chat entrypoint.
With `stream=true` each step is pushed as a discrete event the instant
it is produced, so the response is the ordered event list; with
`stream=false` the caller receives only the terminal content after the
run completes. -/
inductive ChatResponse where
  | sse (events : List Json) : ChatResponse
  | single (terminal : Option Json) : ChatResponse
deriving DecidableEq

/-- The aggregated terminal payload of a finished run: its last terminal
content-bearing step, encoded. -/
def aggregatedTerminal (steps : List AgentStep) : Option Json :=
  ((steps.filter isTerminalStep).getLast?).map encodeStep

/-- Modelled from the spec: the chat entrypoint `chat(message, stream)`
of the absent serving code (`server.py`); per §6 the caller
receives either the full ordered step sequence, one encoded event per
step, or a single aggregated terminal result. -/
def chatEndpoint (steps : List AgentStep) (stream : Bool) : ChatResponse :=
  if stream then .sse (steps.map encodeStep)
  else .single (aggregatedTerminal steps)

/-! ### Input enable/disable flow of `sendMessage` -/

/-- The chat controls `sendMessage` touches. -/
structure ChatUiState where
  inputDisabled : Bool
  sendDisabled : Bool
  inputFocused : Bool
deriving DecidableEq

/-- How one invocation of `sendMessage` can end. -/
inductive SendOutcome where
  | answeredOk : SendOutcome
  | errorStepShown : SendOutcome
  | noAnswerFallback : SendOutcome
  | httpNotOk : SendOutcome
  | eventParseThrew : SendOutcome
  | connectionFailed : SendOutcome
deriving DecidableEq

/-- Which outcomes of the `try` body are thrown exceptions (landing in
the `catch` block) rather than normal completion. -/
def sendBodyThrows : SendOutcome → Bool
  | .httpNotOk => true
  | .eventParseThrew => true
  | .connectionFailed => true
  | _ => false

/-- The statements before the `try`: disable the input and the send
button. -/
def disableControls (st : ChatUiState) : ChatUiState :=
  { st with inputDisabled := true, sendDisabled := true }

/-- The `catch` block: renders a connection error message; it touches no
control state. -/
def sendCatchBlock (st : ChatUiState) : ChatUiState :=
  st

/-- The `finally` block: re-enable the input and the send button and
focus the input. -/
def sendFinallyBlock (st : ChatUiState) : ChatUiState :=
  { st with inputDisabled := false, sendDisabled := false, inputFocused := true }

/-- The control-state trace of one `sendMessage` invocation:
disable, run the `try` body to its outcome, run `catch` only on a
thrown outcome, and run `finally` on every path. -/
def sendMessageControls (outcome : SendOutcome) (st : ChatUiState) : ChatUiState :=
  let disabled := disableControls st
  let afterBody :=
    if sendBodyThrows outcome then sendCatchBlock disabled else disabled
  sendFinallyBlock afterBody

/-! ### Execute requests to the capability registry -/

/-- The body `sendProactiveGreeting` posts to the registry's `/execute`
endpoint (`public/app.js`): the tool name under `tool` and the argument
map under `arguments`. -/
def userContextExecuteBody : Json :=
  .obj [("tool", .str "user_context"),
        ("arguments", .obj [("action", .str "read")])]

/-- The wire shape of every `/execute` request this repository issues —
the client's greeting probe above, and the documented orchestrator and
test invocations: member `tool` for the name, member `arguments` for
the argument map. -/
def executeRequestBody (tool : String) (args : Json) : Json :=
  .obj [("tool", .str tool), ("arguments", args)]

/-! ### Notions used to state the chunking properties -/

/-- Graft a pending buffer onto the first line of a split: the lines of
`buffer ++ text` are the lines of `text` with `buffer` glued to the
first. -/
def mergeHead (pre : List Char) : List (List Char) → List (List Char)
  | [] => [pre]
  | l :: ls => (pre ++ l) :: ls

/-- A complete `data: ` line whose payload parses to a `done` event. -/
def isDoneLine (l : List Char) : Bool :=
  isDataLine l &&
    match parseJsonDocument (dataPayload l) with
    | some d => isDoneEvent d
    | none => false

/-- No `data: ` line occurs after a `done` line in this line sequence.
This is the side condition under which the client's processing is
independent of transport chunking. -/
def noDataAfterDone : List (List Char) → Bool
  | [] => true
  | l :: ls =>
    if isDoneLine l then ls.all (fun l' => !isDataLine l')
    else noDataAfterDone ls

/-! ## Theorems -/

/-! ### Claim C9: the chat controls always come back -/

/-- Claim C9.  For every invocation of the chat send operation, the
message input and send button — disabled at the start of the request —
are re-enabled and focus is returned to the input when the run
finishes, on every outcome: the `finally` block of `sendMessage` runs
whether the `try` body completed, an event failed to parse, or the
connection itself failed. -/
theorem sendMessage_controls_restored :
    ∀ (outcome : SendOutcome) (st : ChatUiState),
      (disableControls st).inputDisabled = true ∧
      (disableControls st).sendDisabled = true ∧
      (sendMessageControls outcome st).inputDisabled = false ∧
      (sendMessageControls outcome st).sendDisabled = false ∧
      (sendMessageControls outcome st).inputFocused = true := by
  intro outcome st
  refine ⟨rfl, rfl, ?_, ?_, ?_⟩ <;>
    simp [sendMessageControls, sendFinallyBlock, sendCatchBlock, disableControls]

/-! ### Claim C7: the wire name of the argument map -/

/-- Counterexample to claim C7 as stated.  The execute request the
client issues for the greeting probe does not carry the argument map
under a parameter named `args`: that member is absent, and the map is
under `arguments`. -/
theorem executeRequest_args_name_refuted :
    jget userContextExecuteBody "args" = none ∧
    jget userContextExecuteBody "arguments" =
      some (.obj [("action", .str "read")]) ∧
    jget userContextExecuteBody "tool" = some (.str "user_context") :=
  ⟨rfl, rfl, rfl⟩

/-- Claim C7 as amended.  Every execute request the program issues to
the Capability Registry carries the tool name under a parameter named
`tool` and the argument map under a parameter named `arguments` (not
`args`); the client's greeting probe is an instance of that shape. -/
theorem executeRequest_wire_shape :
    ∀ (tool : String) (args : Json),
      jget (executeRequestBody tool args) "tool" = some (.str tool) ∧
      jget (executeRequestBody tool args) "arguments" = some args ∧
      jget (executeRequestBody tool args) "args" = none ∧
      jkeys (executeRequestBody tool args) = ["tool", "arguments"] ∧
      userContextExecuteBody =
        executeRequestBody "user_context" (.obj [("action", .str "read")]) := by
  intro tool args
  refine ⟨?_, ?_, ?_, rfl, rfl⟩ <;> rfl

/-! ### Orchestrator loop lemmas -/

theorem getLast?_cons_ne_nil {α : Type} (a : α) {l : List α} (h : l ≠ []) :
    (a :: l).getLast? = l.getLast? := by
  cases l with
  | nil => exact absurd rfl h
  | cons b t => simp [List.getLast?_cons_cons]

theorem runLoop_ne_nil (p : Nat → Except String String)
    (reg : List ToolDefinition) (ex : String → Json → Except String Json)
    (N : Nat) : ∀ fuel i, runLoop p reg ex N fuel i ≠ []
  | 0, _ => by simp [runLoop]
  | _ + 1, _ => by simp [runLoop]

/-- Each unit of fuel admits at most one `thinking` step: the loop
enters at most `fuel` iterations. -/
theorem runLoop_thinking_le (p : Nat → Except String String)
    (reg : List ToolDefinition) (ex : String → Json → Except String Json)
    (N : Nat) : ∀ fuel i, (runLoop p reg ex N fuel i).countP isThinkingStep ≤ fuel
  | 0, i => by
    simp [runLoop, List.countP_cons, List.countP_nil, isThinkingStep]
  | fuel + 1, i => by
    cases hp : p i with
    | error e =>
      simp [runLoop, hp, List.countP_cons, List.countP_nil, isThinkingStep]
    | ok text =>
      cases hx : extract text with
      | none =>
        simp [runLoop, hp, hx, List.countP_cons, List.countP_nil, isThinkingStep]
      | some c =>
        cases hr : registryHas reg c.tool with
        | false =>
          simp [runLoop, hp, hx, hr, List.countP_cons, List.countP_nil,
            isThinkingStep]
        | true =>
          have ih := runLoop_thinking_le p reg ex N fuel (i + 1)
          simp [runLoop, hp, hx, hr, List.countP_cons, isThinkingStep]
          omega

/-- Every run of the loop is a list of non-terminal steps closed by one
terminal step. -/
theorem runLoop_decomp (p : Nat → Except String String)
    (reg : List ToolDefinition) (ex : String → Json → Except String Json)
    (N : Nat) : ∀ fuel i, ∃ ys t,
      runLoop p reg ex N fuel i = ys ++ [t] ∧ isTerminalStep t = true ∧
      ∀ s ∈ ys, isTerminalStep s = false
  | 0, _ =>
    ⟨[], .error (budgetExceededMsg N), by simp [runLoop], rfl, by simp⟩
  | fuel + 1, i => by
    cases hp : p i with
    | error e =>
      refine ⟨[.thinking i], .error e, by simp [runLoop, hp], rfl, ?_⟩
      intro s hs
      simp at hs
      subst hs
      rfl
    | ok text =>
      cases hx : extract text with
      | none =>
        refine ⟨[.thinking i], .answer text, by simp [runLoop, hp, hx], rfl, ?_⟩
        intro s hs
        simp at hs
        subst hs
        rfl
      | some c =>
        cases hr : registryHas reg c.tool with
        | false =>
          refine ⟨[.thinking i], .error (unknownToolMsg c.tool),
            by simp [runLoop, hp, hx, hr], rfl, ?_⟩
          intro s hs
          simp at hs
          subst hs
          rfl
        | true =>
          obtain ⟨ys, t, heq, hterm, hys⟩ := runLoop_decomp p reg ex N fuel (i + 1)
          refine ⟨.thinking i :: .toolCall c.tool c.args c.reasoning ::
            .toolResult c.tool (ex c.tool c.args) :: ys, t,
            by simp [runLoop, hp, hx, hr, heq], hterm, ?_⟩
          intro s hs
          simp only [List.mem_cons] at hs
          rcases hs with rfl | rfl | rfl | hs
          · rfl
          · rfl
          · rfl
          · exact hys s hs

/-- When every iteration yields a valid registered tool call, the loop
spends its whole budget and closes with the budget error. -/
theorem runLoop_budget (p : Nat → Except String String)
    (reg : List ToolDefinition) (ex : String → Json → Except String Json)
    (N : Nat) : ∀ fuel i,
      (∀ k, k < fuel → ∃ text c, p (i + k) = .ok text ∧
        extract text = some c ∧ registryHas reg c.tool = true) →
      (runLoop p reg ex N fuel i).getLast? = some (.error (budgetExceededMsg N))
  | 0, _ => fun _ => by simp [runLoop]
  | fuel + 1, i => fun h => by
    obtain ⟨text, c, hp, hx, hr⟩ := h 0 (Nat.succ_pos _)
    rw [Nat.add_zero] at hp
    have ih := runLoop_budget p reg ex N fuel (i + 1) (fun k hk => by
      have hk1 := h (k + 1) (by omega)
      have hidx : i + 1 + k = i + (k + 1) := by omega
      rw [hidx]
      exact hk1)
    have hne := runLoop_ne_nil p reg ex N fuel (i + 1)
    simp only [runLoop, hp, hx, hr, if_true]
    rw [getLast?_cons_ne_nil _ (by simp), getLast?_cons_ne_nil _ (by simp),
      getLast?_cons_ne_nil _ hne]
    exact ih

/-- When no candidate position of the text parses as a tool call, the
scan finds nothing. -/
theorem extractAux_eq_none : ∀ cs : List Char, noCandidateCall cs → extractAux cs = none
  | [], _ => rfl
  | c :: cs, h => by
    have htail : noCandidateCall cs := by
      intro i hi hb
      have hh := h (i + 1) (by simpa using Nat.succ_lt_succ hi)
        (by simpa [List.drop_succ_cons] using hb)
      simpa [List.drop_succ_cons] using hh
    by_cases hc : c = '{'
    · subst hc
      have h0 := h 0 (by simp) rfl
      simp only [List.drop_zero] at h0
      simp [extractAux, h0, extractAux_eq_none cs htail]
    · simp [extractAux, hc, extractAux_eq_none cs htail]

/-! ### Claim C1: bounded iteration and the budget error -/

/-- Claim C1.  Every orchestrator run terminates within the iteration
budget: for every sequence of provider completions and registry
responses the loop enters at most `maxIterations` iterations (the
configured default is 5), and when the bound is reached without an
answer or error having terminated the run — every iteration having
produced a valid registered tool call — the run's final step is the
terminal error citing the configured limit. -/
theorem orchestrator_bounded_and_budget_error :
    (({} : AgentConfig).maxIterations = 5) ∧
    (∀ (p : Nat → Except String String) (reg : List ToolDefinition)
      (ex : String → Json → Except String Json) (cfg : AgentConfig),
      (runSteps p reg ex cfg).countP isThinkingStep ≤ cfg.maxIterations) ∧
    (∀ (p : Nat → Except String String) (reg : List ToolDefinition)
      (ex : String → Json → Except String Json) (cfg : AgentConfig),
      (∀ k, k < cfg.maxIterations → ∃ text c, p k = .ok text ∧
        extract text = some c ∧ registryHas reg c.tool = true) →
      (runSteps p reg ex cfg).getLast? =
        some (.error (budgetExceededMsg cfg.maxIterations))) := by
  refine ⟨rfl, ?_, ?_⟩
  · intro p reg ex cfg
    exact runLoop_thinking_le p reg ex cfg.maxIterations cfg.maxIterations 0
  · intro p reg ex cfg h
    exact runLoop_budget p reg ex cfg.maxIterations cfg.maxIterations 0
      (fun k hk => by simpa using h k hk)

/-- The budget bound at a concrete run: a provider that always answers
with the same valid `search_files` call against a two-iteration budget
ends in the budget-exceeded error. -/
theorem orchestrator_budget_error_witness :
    (runSteps
      (fun _ => Except.ok
        "x \x7b\"tool\": \"search_files\", \"args\": \x7b\"pattern\": \"*.py\"\x7d\x7d")
      [ToolDefinition.mk "search_files" "Search files" Json.null]
      (fun _ _ => Except.ok Json.null)
      (AgentConfig.mk 2 none none none false)).getLast? =
      some (.error (budgetExceededMsg 2)) :=
  orchestrator_bounded_and_budget_error.2.2 _ _ _ _ (fun _ _ =>
    ⟨_, ⟨"search_files", Json.obj [("pattern", Json.str "*.py")], ""⟩,
      rfl, by decide, by decide⟩)

/-! ### Claim C2: exactly one terminal step -/

/-- Claim C2.  For every run (cancellation is outside this embedding,
so every modelled run is non-cancelled), the emitted step stream
contains exactly one terminal content-bearing step — `answer` or
`error`, never both, never zero — that step is the last content-bearing
step of the stream, and the transport's closing `done` event follows
it. -/
theorem run_single_terminal_step :
    ∀ (p : Nat → Except String String) (reg : List ToolDefinition)
      (ex : String → Json → Except String Json) (cfg : AgentConfig),
      ∃ t : AgentStep, isTerminalStep t = true ∧
        (streamSteps p reg ex cfg).filter isTerminalStep = [t] ∧
        ((streamSteps p reg ex cfg).filter isContentStep).getLast? = some t ∧
        (streamSteps p reg ex cfg).getLast? = some .done := by
  intro p reg ex cfg
  obtain ⟨ys, t, heq, hterm, hys⟩ :=
    runLoop_decomp p reg ex cfg.maxIterations cfg.maxIterations 0
  have hct : isContentStep t = true := by
    cases t <;> simp_all [isTerminalStep, isContentStep]
  refine ⟨t, hterm, ?_, ?_, ?_⟩
  · unfold streamSteps runSteps
    rw [heq, List.filter_append, List.filter_append]
    have h1 : ys.filter isTerminalStep = [] := by
      rw [List.filter_eq_nil_iff]
      intro a ha
      simp [hys a ha]
    have h2 : [t].filter isTerminalStep = [t] := by simp [hterm]
    simp [h1, h2, isTerminalStep]
  · unfold streamSteps runSteps
    rw [heq, List.filter_append, List.filter_append]
    have h2 : [t].filter isContentStep = [t] := by simp [hct]
    have h3 : [AgentStep.done].filter isContentStep = [] := rfl
    rw [h2, h3, List.append_nil]
    exact List.getLast?_concat _
  · unfold streamSteps runSteps
    rw [heq]
    exact List.getLast?_concat _

/-! ### Claim C3: unknown tool terminates the run -/

/-- Claim C3.  Whenever the extractor finds a structured tool call
whose tool name is not in the registry snapshot, the orchestrator — at
any iteration with budget remaining — emits the terminal step
`error{Unknown tool: <name>}` and terminates the run immediately: no
retry, no re-prompt, and no further steps after it. -/
theorem unknown_tool_terminates :
    ∀ (p : Nat → Except String String) (reg : List ToolDefinition)
      (ex : String → Json → Except String Json) (N fuel i : Nat)
      (text : String) (c : ToolCall),
      p i = .ok text → extract text = some c → registryHas reg c.tool = false →
      runLoop p reg ex N (fuel + 1) i =
        [.thinking i, .error (unknownToolMsg c.tool)] := by
  intro p reg ex N fuel i text c hp hx hr
  simp [runLoop, hp, hx, hr]

/-- The unknown-tool behaviour at a concrete run: a parsed call naming
`foo_bar`, absent from the registry, yields exactly
`[thinking 0, error "Unknown tool: foo_bar"]`. -/
theorem unknown_tool_terminates_witness :
    runLoop (fun _ => Except.ok "\x7b\"tool\": \"foo_bar\", \"args\": \x7b\x7d\x7d")
      [ToolDefinition.mk "search_files" "Search files" Json.null]
      (fun _ _ => Except.ok Json.null) 5 (4 + 1) 0 =
      [.thinking 0, .error (unknownToolMsg "foo_bar")] :=
  unknown_tool_terminates _ _ _ 5 4 0 _ ⟨"foo_bar", Json.obj [], ""⟩
    rfl (by decide) (by decide)

/-! ### Claim C4: the extractor is total and malformed JSON yields no call -/

/-- Claim C4.  The tool-call extractor is total — it is a Lean function
and cannot throw — and a text whose JSON-like content is all malformed
(no candidate position parses as a call) yields `none`: in particular
on an unbalanced object and on a trailing-comma object.  A completion
on which extraction yields `none` is routed to the answer path: the
loop emits `answer` with the whole completion text rather than an
error. -/
theorem extractor_total_malformed_to_answer :
    (∀ text : String, noCandidateCall text.data → extract text = none) ∧
    extract "I would call \x7b\"tool\": \"x\", \"args\": " = none ∧
    extract "Result: \x7b\"tool\": \"x\", \"args\": \x7b\"a\": 1,\x7d\x7d" = none ∧
    (∀ (p : Nat → Except String String) (reg : List ToolDefinition)
      (ex : String → Json → Except String Json) (N fuel i : Nat) (text : String),
      p i = .ok text → extract text = none →
      runLoop p reg ex N (fuel + 1) i = [.thinking i, .answer text]) := by
  refine ⟨?_, by decide, by decide, ?_⟩
  · intro text h
    exact extractAux_eq_none text.data h
  · intro p reg ex N fuel i text hp hx
    simp [runLoop, hp, hx]

/-- The malformed-input clause at a concrete text whose braces never
open a parsable call. -/
theorem extractor_malformed_witness :
    extract "see \x7b\"tool\": \"x\" and \x7b\x7b nothing" = none :=
  extractor_total_malformed_to_answer.1 _ (by decide)

/-! ### HTML escaping lemmas -/

theorem jsReplaceAll_append (c : Char) (rep : List Char) :
    ∀ xs ys, jsReplaceAll c rep (xs ++ ys) =
      jsReplaceAll c rep xs ++ jsReplaceAll c rep ys
  | [], ys => by simp [jsReplaceAll]
  | a :: xs, ys => by
    simp [jsReplaceAll, jsReplaceAll_append c rep xs ys, List.append_assoc]

/-- The five sequential replacements act as the single-pass character
map `escChar`: the ampersand pass runs first, and the entities the
later passes introduce contain no character any further pass
touches. -/
theorem escapeHtml_chain (cs : List Char) :
    jsReplaceAll '\'' "&#39;".data
      (jsReplaceAll '"' "&quot;".data
        (jsReplaceAll '>' "&gt;".data
          (jsReplaceAll '<' "&lt;".data
            (jsReplaceAll '&' "&amp;".data cs)))) = (cs.map escChar).flatten := by
  induction cs with
  | nil => rfl
  | cons a cs ih =>
    rw [show jsReplaceAll '&' "&amp;".data (a :: cs) =
      (if a = '&' then "&amp;".data else [a]) ++ jsReplaceAll '&' "&amp;".data cs
      from rfl]
    rw [jsReplaceAll_append, jsReplaceAll_append, jsReplaceAll_append,
      jsReplaceAll_append, List.map_cons, List.flatten_cons]
    rw [ih]
    congr 1
    by_cases h1 : a = '&'
    · subst h1; rfl
    by_cases h2 : a = '<'
    · subst h2; rfl
    by_cases h3 : a = '>'
    · subst h3; rfl
    by_cases h4 : a = '"'
    · subst h4; rfl
    by_cases h5 : a = '\''
    · subst h5; rfl
    simp [jsReplaceAll, escChar, h1, h2, h3, h4, h5]

/-- No character produced by `escChar` is one of the four raw markup
characters, and a raw character survives only when it is none of the
five escaped ones. -/
theorem escChar_mem_safe (a c : Char) (hc : c ∈ escChar a)
    (hbad : c = '<' ∨ c = '>' ∨ c = '"' ∨ c = '\'') : False := by
  unfold escChar at hc
  split_ifs at hc with h1 h2 h3 h4 h5
  · rcases hbad with rfl | rfl | rfl | rfl <;> exact absurd hc (by decide)
  · rcases hbad with rfl | rfl | rfl | rfl <;> exact absurd hc (by decide)
  · rcases hbad with rfl | rfl | rfl | rfl <;> exact absurd hc (by decide)
  · rcases hbad with rfl | rfl | rfl | rfl <;> exact absurd hc (by decide)
  · rcases hbad with rfl | rfl | rfl | rfl <;> exact absurd hc (by decide)
  · simp only [List.mem_singleton] at hc
    subst hc
    rcases hbad with h | h | h | h <;> simp_all

/-! ### Claim C10: escapeHtml and the error step -/

/-- Claim C10.  `escapeHtml` replaces every occurrence of `&`, `<`,
`>`, `"` and `'` with the corresponding HTML entity: its output is the
character-wise image of the input under `escChar`, it contains no raw
`<`, `>`, `"` or `'` at all, and every `&` it contains is the one
ampersand of an entity substituted for an escaped input character.  The
error text of every error step is passed through `escapeHtml` before
the client inserts it into the page as HTML. -/
theorem escapeHtml_escapes_and_error_path_escaped :
    (∀ s : String, (escapeHtml s).data = (s.data.map escChar).flatten) ∧
    (∀ s : String, ∀ c ∈ (escapeHtml s).data,
      c ≠ '<' ∧ c ≠ '>' ∧ c ≠ '"' ∧ c ≠ '\'') ∧
    (∀ s : String, (escapeHtml s).data.count '&' =
      s.data.countP (fun c => decide (escChar c ≠ [c]))) ∧
    (∀ (j : Json) (msg : String),
      jget j "type" = some (.str "error") →
      jget j "error" = some (.str msg) →
      dispatchEvent j = .showError (errorHeaderHtml ++ escapeHtml msg)) := by
  have hdata : ∀ s : String, (escapeHtml s).data = (s.data.map escChar).flatten := by
    intro s
    show jsReplaceAll '\'' "&#39;".data
      (jsReplaceAll '"' "&quot;".data
        (jsReplaceAll '>' "&gt;".data
          (jsReplaceAll '<' "&lt;".data
            (jsReplaceAll '&' "&amp;".data s.data)))) = (s.data.map escChar).flatten
    exact escapeHtml_chain s.data
  refine ⟨hdata, ?_, ?_, ?_⟩
  · intro s c hc
    rw [hdata] at hc
    rw [List.mem_flatten] at hc
    obtain ⟨blk, hblk, hcl⟩ := hc
    rw [List.mem_map] at hblk
    obtain ⟨a, _, rfl⟩ := hblk
    exact ⟨fun h => escChar_mem_safe a c hcl (Or.inl h),
      fun h => escChar_mem_safe a c hcl (Or.inr (Or.inl h)),
      fun h => escChar_mem_safe a c hcl (Or.inr (Or.inr (Or.inl h))),
      fun h => escChar_mem_safe a c hcl (Or.inr (Or.inr (Or.inr h)))⟩
  · intro s
    rw [hdata]
    induction s.data with
    | nil => rfl
    | cons a cs ih =>
      rw [List.map_cons, List.flatten_cons, List.count_append, List.countP_cons, ih]
      have hone : (escChar a).count '&' = if decide (escChar a ≠ [a]) = true then 1 else 0 := by
        by_cases h1 : a = '&'
        · subst h1; rfl
        by_cases h2 : a = '<'
        · subst h2; rfl
        by_cases h3 : a = '>'
        · subst h3; rfl
        by_cases h4 : a = '"'
        · subst h4; rfl
        by_cases h5 : a = '\''
        · subst h5; rfl
        have hid : escChar a = [a] := by simp [escChar, h1, h2, h3, h4, h5]
        rw [hid]
        simp [List.count_singleton, h1]
      rw [hone]
      omega
  · intro j msg hty herr
    simp [dispatchEvent, hty, herr, jsErrorMessage, jsString]

/-! ### Claim C5: event shape and client dispatch -/

/-- Claim C5.  Every encoded step event is one JSON object whose `type`
is one of the six protocol types and whose members are drawn from the
protocol's field set; and the client's dispatch handles exactly this
set of shapes: it acts on an event precisely when its `type` is one of
the six, and what it does depends only on the protocol's payload
fields. -/
theorem stepEvent_shape_and_dispatch :
    (∀ s : AgentStep,
      (∃ t ∈ stepEventTypes, jget (encodeStep s) "type" = some (.str t)) ∧
      ∀ k ∈ jkeys (encodeStep s), k ∈ stepEventFields) ∧
    (∀ j : Json,
      dispatchEvent j ≠ .ignore ↔ ∃ t ∈ stepEventTypes, jget j "type" = some (.str t)) ∧
    (∀ j₁ j₂ : Json,
      (∀ k ∈ stepEventFields, jget j₁ k = jget j₂ k) →
      dispatchEvent j₁ = dispatchEvent j₂) := by
  refine ⟨?_, ?_, ?_⟩
  · intro s
    cases s with
    | thinking i =>
      refine ⟨⟨"thinking", by decide, rfl⟩, ?_⟩
      intro k hk
      simp [jkeys, encodeStep] at hk
      rcases hk with rfl | rfl <;> decide
    | toolCall t args reasoning =>
      refine ⟨⟨"tool_call", by decide, rfl⟩, ?_⟩
      intro k hk
      simp [jkeys, encodeStep] at hk
      rcases hk with rfl | rfl | rfl | rfl <;> decide
    | toolResult t r =>
      cases r with
      | ok v =>
        refine ⟨⟨"tool_result", by decide, rfl⟩, ?_⟩
        intro k hk
        simp [jkeys, encodeStep] at hk
        rcases hk with rfl | rfl | rfl <;> decide
      | error e =>
        refine ⟨⟨"tool_result", by decide, rfl⟩, ?_⟩
        intro k hk
        simp [jkeys, encodeStep] at hk
        rcases hk with rfl | rfl | rfl <;> decide
    | answer content =>
      refine ⟨⟨"answer", by decide, rfl⟩, ?_⟩
      intro k hk
      simp [jkeys, encodeStep] at hk
      rcases hk with rfl | rfl <;> decide
    | error message =>
      refine ⟨⟨"error", by decide, rfl⟩, ?_⟩
      intro k hk
      simp [jkeys, encodeStep] at hk
      rcases hk with rfl | rfl <;> decide
    | done =>
      refine ⟨⟨"done", by decide, rfl⟩, ?_⟩
      intro k hk
      simp [jkeys, encodeStep] at hk
      subst hk
      decide
  · intro j
    constructor
    · intro hne
      by_cases h1 : jget j "type" = some (.str "thinking")
      · exact ⟨"thinking", by decide, h1⟩
      by_cases h2 : jget j "type" = some (.str "tool_call")
      · exact ⟨"tool_call", by decide, h2⟩
      by_cases h3 : jget j "type" = some (.str "tool_result")
      · exact ⟨"tool_result", by decide, h3⟩
      by_cases h4 : jget j "type" = some (.str "answer")
      · exact ⟨"answer", by decide, h4⟩
      by_cases h5 : jget j "type" = some (.str "error")
      · exact ⟨"error", by decide, h5⟩
      by_cases h6 : jget j "type" = some (.str "done")
      · exact ⟨"done", by decide, h6⟩
      exact absurd (by simp [dispatchEvent, h1, h2, h3, h4, h5, h6]) hne
    · rintro ⟨t, ht, hty⟩
      simp [stepEventTypes] at ht
      rcases ht with rfl | rfl | rfl | rfl | rfl | rfl
      all_goals simp [dispatchEvent, hty]
  · intro j₁ j₂ h
    have hty := h "type" (by decide)
    have hit := h "iteration" (by decide)
    have htn := h "tool_name" (by decide)
    have hta := h "tool_args" (by decide)
    have hco := h "content" (by decide)
    have hre := h "result" (by decide)
    have her := h "error" (by decide)
    simp only [dispatchEvent, hty, hit, htn, hta, hco, hre, her]

/-- The dispatch field-dependency at a concrete pair of events that
agree on every protocol field but differ in an extra member. -/
theorem stepEvent_dispatch_witness :
    dispatchEvent (Json.obj [("type", Json.str "answer"), ("content", Json.str "hi")]) =
      dispatchEvent (Json.obj [("content", Json.str "hi"),
        ("type", Json.str "answer"), ("extra", Json.null)]) :=
  stepEvent_shape_and_dispatch.2.2 _ _ (by decide)

/-- The error path at a concrete error event whose text holds raw
markup characters. -/
theorem escapeHtml_error_path_witness :
    dispatchEvent (Json.obj [("type", Json.str "error"), ("error", Json.str "<b>&: '")]) =
      .showError (errorHeaderHtml ++ escapeHtml "<b>&: '") :=
  escapeHtml_escapes_and_error_path_escaped.2.2.2 _ "<b>&: '" rfl rfl

/-! ### Claim C6: the stream flag -/

/-- Claim C6.  The chat entrypoint honours its stream flag: the
streaming chat request built by `sendMessage` has `stream = true` and
its response is read incrementally as SSE, carrying one discrete
encoded event per step in emission order; the aggregation request built
by `analyzeProjectStatus` has `stream = false` and its response is one
JSON body holding only the aggregated terminal result. -/
theorem chat_stream_flag_honoured :
    ∀ (message analysisPrompt : String) (ctx : Option Json) (pctx : Json)
      (steps : List AgentStep),
      (sendMessageChatRequest message ctx).stream = true ∧
      chatResponseReadMode (sendMessageChatRequest message ctx).stream =
        .sseIncremental ∧
      (analyzeStatusChatRequest analysisPrompt pctx).stream = false ∧
      chatResponseReadMode (analyzeStatusChatRequest analysisPrompt pctx).stream =
        .singleJson ∧
      chatEndpoint steps true = .sse (steps.map encodeStep) ∧
      (steps.map encodeStep).length = steps.length ∧
      (∀ i : Nat, (steps.map encodeStep)[i]? = (steps[i]?).map encodeStep) ∧
      chatEndpoint steps false = .single (aggregatedTerminal steps) := by
  intro message analysisPrompt ctx pctx steps
  refine ⟨rfl, rfl, rfl, rfl, rfl, List.length_map _ _, ?_, rfl⟩
  intro i
  simp [List.getElem?_map]

/-! ### Line splitting lemmas -/

theorem splitNL_ne_nil : ∀ cs : List Char, splitNL cs ≠ []
  | [] => by simp [splitNL]
  | c :: cs => by
    simp only [splitNL]
    split
    · exact List.cons_ne_nil _ _
    · split
      · exact List.cons_ne_nil _ _
      · exact List.cons_ne_nil _ _

theorem dropLast_cons_ne {α : Type} (a : α) {l : List α} (h : l ≠ []) :
    (a :: l).dropLast = a :: l.dropLast := by
  cases l with
  | nil => exact absurd rfl h
  | cons b t => rfl

theorem dropLast_append_ne {α : Type} :
    ∀ (xs : List α) {ys : List α}, ys ≠ [] →
      (xs ++ ys).dropLast = xs ++ ys.dropLast
  | [], ys, _ => by simp
  | a :: xs, ys, h => by
    rw [List.cons_append, dropLast_cons_ne a (by simp [h]),
      dropLast_append_ne xs h, List.cons_append]

theorem getLastD_cons_irrel {α : Type} (a : α) (l : List α) (d₁ d₂ : α) :
    (a :: l).getLastD d₁ = (a :: l).getLastD d₂ := rfl

/-- Splitting a concatenation: the lines of `a` except the last, then
the last line of `a` grafted onto the first line of `b`. -/
theorem splitNL_append : ∀ a b : List Char,
    splitNL (a ++ b) =
      (splitNL a).dropLast ++ mergeHead ((splitNL a).getLastD []) (splitNL b)
  | [], b => by
    cases hb : splitNL b with
    | nil => exact absurd hb (splitNL_ne_nil b)
    | cons l ls => simp [splitNL, mergeHead, hb]
  | c :: a', b => by
    have ih := splitNL_append a' b
    by_cases hc : c = '\n'
    · subst hc
      cases ha : splitNL a' with
      | nil => exact absurd ha (splitNL_ne_nil a')
      | cons l ls =>
        rw [List.cons_append]
        rw [show splitNL ('\n' :: (a' ++ b)) = [] :: splitNL (a' ++ b) from by
          simp [splitNL]]
        rw [show splitNL ('\n' :: a') = [] :: splitNL a' from by simp [splitNL]]
        rw [ih, ha]
        rw [dropLast_cons_ne _ (List.cons_ne_nil _ _), List.cons_append]
        rfl
    · cases hab : splitNL (a' ++ b) with
      | nil => exact absurd hab (splitNL_ne_nil _)
      | cons m ms =>
        cases ha : splitNL a' with
        | nil => exact absurd ha (splitNL_ne_nil a')
        | cons l ls =>
          rw [List.cons_append]
          rw [show splitNL (c :: (a' ++ b)) =
            (match splitNL (a' ++ b) with
             | [] => [[c]]
             | l :: ls => (c :: l) :: ls) from by simp [splitNL, hc]]
          rw [show splitNL (c :: a') =
            (match splitNL a' with
             | [] => [[c]]
             | l :: ls => (c :: l) :: ls) from by simp [splitNL, hc]]
          rw [hab, ha]
          rw [ih, ha] at hab
          cases ls with
          | nil =>
            cases hb : splitNL b with
            | nil => exact absurd hb (splitNL_ne_nil b)
            | cons x xs =>
              rw [hb] at hab
              rw [show ([l] : List (List Char)).dropLast = [] from rfl,
                show ([l] : List (List Char)).getLastD [] = l from rfl,
                List.nil_append] at hab
              rw [show mergeHead l (x :: xs) = (l ++ x) :: xs from rfl] at hab
              obtain ⟨rfl, rfl⟩ := List.cons.inj hab
              simp [mergeHead, hb]
          | cons l₂ ls₂ =>
            rw [dropLast_cons_ne _ (List.cons_ne_nil _ _), List.cons_append] at hab
            obtain ⟨rfl, rfl⟩ := List.cons.inj hab
            rw [dropLast_cons_ne _ (List.cons_ne_nil _ _), List.cons_append]
            rfl

/-- A chunk with no newline is a single incomplete line. -/
theorem splitNL_no_newline : ∀ cs : List Char, '\n' ∉ cs → splitNL cs = [cs]
  | [], _ => rfl
  | c :: cs, h => by
    have hc : ¬c = '\n' := fun hh => h (by simp [hh])
    have ih := splitNL_no_newline cs (fun hh => h (List.mem_cons.mpr (Or.inr hh)))
    simp [splitNL, hc, ih]

/-- The pending buffer the split leaves — the text after the final
newline — never contains a newline. -/
theorem splitNL_last_no_newline : ∀ cs : List Char, '\n' ∉ (splitNL cs).getLastD []
  | [] => by simp [splitNL]
  | c :: cs => by
    have ih := splitNL_last_no_newline cs
    by_cases hc : c = '\n'
    · subst hc
      rw [show splitNL ('\n' :: cs) = [] :: splitNL cs from by simp [splitNL]]
      cases hs : splitNL cs with
      | nil => exact absurd hs (splitNL_ne_nil cs)
      | cons l ls =>
        rw [hs] at ih
        rw [show (([] : List Char) :: l :: ls).getLastD [] = (l :: ls).getLastD []
          from rfl]
        exact ih
    · rw [show splitNL (c :: cs) =
        (match splitNL cs with
         | [] => [[c]]
         | l :: ls => (c :: l) :: ls) from by simp [splitNL, hc]]
      cases hs : splitNL cs with
      | nil => exact absurd hs (splitNL_ne_nil cs)
      | cons l ls =>
        rw [hs] at ih
        cases ls with
        | nil =>
          rw [show ([l] : List (List Char)).getLastD [] = l from rfl] at ih
          rw [show ([c :: l] : List (List Char)).getLastD [] = c :: l from rfl]
          intro hmem
          rcases List.mem_cons.mp hmem with h | h
          · exact hc h.symm
          · exact ih h
        | cons l₂ ls₂ =>
          rw [show ((c :: l) :: l₂ :: ls₂).getLastD [] = (l₂ :: ls₂).getLastD (c :: l)
            from rfl]
          rw [show (l :: l₂ :: ls₂).getLastD [] = (l₂ :: ls₂).getLastD l from rfl] at ih
          rw [getLastD_cons_irrel _ _ (c :: l) l]
          exact ih

/-! ### Batch processing lemmas -/

/-- Processing a concatenation of line batches: a batch that ran to its
end continues into the next; a batch that threw or broke on `done`
swallows everything after it. -/
theorem processBatch_append : ∀ xs ys : List (List Char),
    ((processBatch xs).2 = .ran →
      processBatch (xs ++ ys) =
        ((processBatch xs).1 ++ (processBatch ys).1, (processBatch ys).2)) ∧
    ((processBatch xs).2 ≠ .ran → processBatch (xs ++ ys) = processBatch xs)
  | [], ys => ⟨fun _ => by simp [processBatch], fun h => absurd rfl h⟩
  | l :: xs, ys => by
    have ih := processBatch_append xs ys
    cases hd : isDataLine l with
    | false =>
      constructor
      · intro h
        rw [List.cons_append]
        rw [show processBatch (l :: (xs ++ ys)) = processBatch (xs ++ ys) from by
          simp [processBatch, hd]]
        rw [show processBatch (l :: xs) = processBatch xs from by
          simp [processBatch, hd]] at h ⊢
        exact ih.1 h
      · intro h
        rw [List.cons_append]
        rw [show processBatch (l :: (xs ++ ys)) = processBatch (xs ++ ys) from by
          simp [processBatch, hd]]
        rw [show processBatch (l :: xs) = processBatch xs from by
          simp [processBatch, hd]] at h ⊢
        exact ih.2 h
    | true =>
      cases hp : parseJsonDocument (dataPayload l) with
      | none =>
        constructor
        · intro h
          rw [show processBatch (l :: xs) = ([], .threw) from by
            simp [processBatch, hd, hp]] at h
          exact absurd h (by simp)
        · intro _
          rw [List.cons_append]
          rw [show processBatch (l :: (xs ++ ys)) = ([], .threw) from by
            simp [processBatch, hd, hp]]
          rw [show processBatch (l :: xs) = ([], .threw) from by
            simp [processBatch, hd, hp]]
      | some d =>
        cases he : isDoneEvent d with
        | true =>
          constructor
          · intro h
            rw [show processBatch (l :: xs) = ([d], .brokeDone) from by
              simp [processBatch, hd, hp, he]] at h
            exact absurd h (by simp)
          · intro _
            rw [List.cons_append]
            rw [show processBatch (l :: (xs ++ ys)) = ([d], .brokeDone) from by
              simp [processBatch, hd, hp, he]]
            rw [show processBatch (l :: xs) = ([d], .brokeDone) from by
              simp [processBatch, hd, hp, he]]
        | false =>
          have hstep : ∀ zs, processBatch (l :: zs) =
              (d :: (processBatch zs).1, (processBatch zs).2) := by
            intro zs
            simp [processBatch, hd, hp, he]
          constructor
          · intro h
            rw [hstep] at h
            rw [List.cons_append, hstep, hstep]
            rw [ih.1 h]
            simp
          · intro h
            rw [hstep] at h
            rw [List.cons_append, hstep, hstep]
            rw [ih.2 h]

/-- A batch without data lines produces nothing and runs to its end. -/
theorem processBatch_no_data : ∀ ls : List (List Char),
    (∀ l ∈ ls, isDataLine l = false) → processBatch ls = ([], .ran)
  | [], _ => rfl
  | l :: ls, h => by
    have hd := h l (by simp)
    rw [show processBatch (l :: ls) = processBatch ls from by simp [processBatch, hd]]
    exact processBatch_no_data ls (fun x hx => h x (List.mem_cons.mpr (Or.inr hx)))

/-- A line sequence with no data lines trivially has no data after a
`done`. -/
theorem noDataAfterDone_of_no_data : ∀ ls : List (List Char),
    (∀ l ∈ ls, isDataLine l = false) → noDataAfterDone ls = true
  | [], _ => rfl
  | l :: ls, h => by
    have hd := h l (by simp)
    have hdl : isDoneLine l = false := by simp [isDoneLine, hd]
    rw [show noDataAfterDone (l :: ls) = noDataAfterDone ls from by
      simp [noDataAfterDone, hdl]]
    exact noDataAfterDone_of_no_data ls (fun x hx => h x (List.mem_cons.mpr (Or.inr hx)))

/-- The no-data-after-done condition restricts to any suffix of
batches. -/
theorem noDataAfterDone_append_right : ∀ xs ys : List (List Char),
    noDataAfterDone (xs ++ ys) = true → noDataAfterDone ys = true
  | [], _, h => h
  | l :: xs, ys, h => by
    cases hdl : isDoneLine l with
    | true =>
      rw [List.cons_append, show noDataAfterDone (l :: (xs ++ ys)) =
        (xs ++ ys).all (fun l' => !isDataLine l') from by
          simp [noDataAfterDone, hdl]] at h
      rw [List.all_append] at h
      have hys := (Bool.and_eq_true_iff.mp h).2
      refine noDataAfterDone_of_no_data ys (fun x hx => ?_)
      have := List.all_eq_true.mp hys x hx
      simpa using this
    | false =>
      rw [List.cons_append, show noDataAfterDone (l :: (xs ++ ys)) =
        noDataAfterDone (xs ++ ys) from by simp [noDataAfterDone, hdl]] at h
      exact noDataAfterDone_append_right xs ys h

/-- When the first batch broke on a `done` line and no data line
follows a `done`, the remaining batches carry no data line at all. -/
theorem brokeDone_no_data_after : ∀ xs ys : List (List Char),
    noDataAfterDone (xs ++ ys) = true → (processBatch xs).2 = .brokeDone →
    ∀ l ∈ ys, isDataLine l = false
  | [], _, _, hb => by
    rw [show (processBatch []).2 = .ran from rfl] at hb
    exact absurd hb (by simp)
  | l :: xs, ys, h, hb => by
    cases hd : isDataLine l with
    | false =>
      have hdl : isDoneLine l = false := by simp [isDoneLine, hd]
      rw [List.cons_append, show noDataAfterDone (l :: (xs ++ ys)) =
        noDataAfterDone (xs ++ ys) from by simp [noDataAfterDone, hdl]] at h
      rw [show processBatch (l :: xs) = processBatch xs from by
        simp [processBatch, hd]] at hb
      exact brokeDone_no_data_after xs ys h hb
    | true =>
      cases hp : parseJsonDocument (dataPayload l) with
      | none =>
        rw [show (processBatch (l :: xs)).2 = .threw from by
          simp [processBatch, hd, hp]] at hb
        exact absurd hb (by simp)
      | some d =>
        cases he : isDoneEvent d with
        | true =>
          have hdl : isDoneLine l = true := by simp [isDoneLine, hd, hp, he]
          rw [List.cons_append, show noDataAfterDone (l :: (xs ++ ys)) =
            (xs ++ ys).all (fun l' => !isDataLine l') from by
              simp [noDataAfterDone, hdl]] at h
          rw [List.all_append] at h
          have hys := (Bool.and_eq_true_iff.mp h).2
          intro x hx
          have := List.all_eq_true.mp hys x hx
          simpa using this
        | false =>
          have hdl : isDoneLine l = false := by simp [isDoneLine, hd, hp, he]
          rw [List.cons_append, show noDataAfterDone (l :: (xs ++ ys)) =
            noDataAfterDone (xs ++ ys) from by simp [noDataAfterDone, hdl]] at h
          rw [show (processBatch (l :: xs)).2 = (processBatch xs).2 from by
            simp [processBatch, hd, hp, he]] at hb
          exact brokeDone_no_data_after xs ys h hb

/-- The read loop against its chunking-free description: when no data
line follows a `done` line, feeding any chunking processes exactly the
complete lines of the concatenated text, in order. -/
theorem feedChunks_canonical : ∀ (chunks : List (List Char)) (buffer : List Char),
    '\n' ∉ buffer →
    noDataAfterDone ((splitNL (buffer ++ chunks.flatten)).dropLast) = true →
    feedChunks buffer chunks =
      (processBatch ((splitNL (buffer ++ chunks.flatten)).dropLast)).1
  | [], buffer => by
    intro hnl _
    rw [List.flatten_nil, List.append_nil, splitNL_no_newline buffer hnl]
    rfl
  | chunk :: rest, buffer => by
    intro hnl hnd
    have hassoc : buffer ++ (chunk :: rest).flatten = (buffer ++ chunk) ++ rest.flatten := by
      rw [List.flatten_cons, List.append_assoc]
    have hbuf' : '\n' ∉ (splitNL (buffer ++ chunk)).getLastD [] :=
      splitNL_last_no_newline _
    have hmerge : splitNL (((splitNL (buffer ++ chunk)).getLastD []) ++ rest.flatten) =
        mergeHead ((splitNL (buffer ++ chunk)).getLastD []) (splitNL rest.flatten) := by
      rw [splitNL_append, splitNL_no_newline _ hbuf']
      rfl
    have hsplit : splitNL (buffer ++ (chunk :: rest).flatten) =
        (splitNL (buffer ++ chunk)).dropLast ++
          splitNL (((splitNL (buffer ++ chunk)).getLastD []) ++ rest.flatten) := by
      rw [hassoc, splitNL_append, hmerge]
    have hM := splitNL_ne_nil (((splitNL (buffer ++ chunk)).getLastD []) ++ rest.flatten)
    have hlines : (splitNL (buffer ++ (chunk :: rest).flatten)).dropLast =
        (splitNL (buffer ++ chunk)).dropLast ++
          (splitNL (((splitNL (buffer ++ chunk)).getLastD []) ++ rest.flatten)).dropLast := by
      rw [hsplit, dropLast_append_ne _ hM]
    rw [hlines] at hnd ⊢
    have hnd' := noDataAfterDone_append_right _ _ hnd
    have ih := feedChunks_canonical rest ((splitNL (buffer ++ chunk)).getLastD [])
      hbuf' hnd'
    cases hpb : (processBatch ((splitNL (buffer ++ chunk)).dropLast)).2 with
    | threw =>
      rw [show feedChunks buffer (chunk :: rest) =
        (processBatch ((splitNL (buffer ++ chunk)).dropLast)).1 from by
          simp [feedChunks, hpb]]
      rw [(processBatch_append _ _).2 (by rw [hpb]; simp)]
    | ran =>
      rw [show feedChunks buffer (chunk :: rest) =
        (processBatch ((splitNL (buffer ++ chunk)).dropLast)).1 ++
          feedChunks ((splitNL (buffer ++ chunk)).getLastD []) rest from by
          simp [feedChunks, hpb]]
      rw [(processBatch_append _ _).1 hpb, ih]
    | brokeDone =>
      rw [show feedChunks buffer (chunk :: rest) =
        (processBatch ((splitNL (buffer ++ chunk)).dropLast)).1 ++
          feedChunks ((splitNL (buffer ++ chunk)).getLastD []) rest from by
          simp [feedChunks, hpb]]
      rw [(processBatch_append _ _).2 (by rw [hpb]; simp)]
      have hnodata := brokeDone_no_data_after _ _ hnd hpb
      rw [ih, processBatch_no_data _ hnodata]
      simp

/-! ### Claim C8: chunking invariance of step delivery -/

/-- Counterexample to claim C8 as stated.  Two chunkings of the same
byte sequence — a `done` data line followed by an `answer` data line —
produce different processed event sequences: in one chunk the `done`
branch's `break` discards the `answer` line already split from the
buffer, while with the lines in separate chunks the `answer` line is
processed after the outer read loop resumes. -/
theorem sse_chunking_counterexample :
    ([("data: \x7b\"type\": \"done\"\x7d\ndata: \x7b\"type\": \"answer\", \"content\": \"hi\"\x7d\n" : String).data].flatten =
      [("data: \x7b\"type\": \"done\"\x7d\n" : String).data,
       ("data: \x7b\"type\": \"answer\", \"content\": \"hi\"\x7d\n" : String).data].flatten) ∧
    clientEvents
      [("data: \x7b\"type\": \"done\"\x7d\ndata: \x7b\"type\": \"answer\", \"content\": \"hi\"\x7d\n" : String).data] ≠
    clientEvents
      [("data: \x7b\"type\": \"done\"\x7d\n" : String).data,
       ("data: \x7b\"type\": \"answer\", \"content\": \"hi\"\x7d\n" : String).data] := by
  exact ⟨by decide, by decide⟩

/-- Claim C8 as amended.  For every fixed sequence of SSE `data: `
lines in which no data line follows a `done` event, the chat client
processes the same events exactly once and in the same order no matter
how the byte stream is split into chunks — a line cut at a chunk
boundary is kept in the buffer and completed by the next chunk, never
dropped, duplicated or reordered.  (As stated the claim fails: the
`done` branch breaks out of the per-chunk line loop only, so a data
line after a `done` is dropped or kept depending on the chunking.) -/
theorem sse_chunking_invariant :
    ∀ chunks₁ chunks₂ : List (List Char),
      chunks₁.flatten = chunks₂.flatten →
      noDataAfterDone ((splitNL chunks₁.flatten).dropLast) = true →
      clientEvents chunks₁ = clientEvents chunks₂ := by
  intro c1 c2 hj hnd
  unfold clientEvents
  rw [feedChunks_canonical c1 [] (by simp) (by simpa using hnd),
    feedChunks_canonical c2 [] (by simp)
      (by simpa [← hj] using hnd)]
  rw [List.nil_append, List.nil_append, hj]

/-- The chunking invariance at a concrete stream split in the middle of
the `answer` line: the cut line is completed by the second chunk and
both chunkings process the same events. -/
theorem sse_chunking_invariant_witness :
    clientEvents
      [("data: \x7b\"type\": \"answer\", \"content\": \"hi\"\x7d\ndata: \x7b\"type\": \"done\"\x7d\n" : String).data] =
    clientEvents
      [("data: \x7b\"type\": \"ans" : String).data,
       ("wer\", \"content\": \"hi\"\x7d\ndata: \x7b\"type\": \"done\"\x7d\n" : String).data] :=
  sse_chunking_invariant _ _ (by decide) (by decide)

end Drakyn
